import Mathlib

set_option linter.unusedVariables false

/-!
Verification of the Otsu thresholding component (`Computer_Vision.py`).

The source computes Otsu's threshold for a 2D numpy array of unsigned
integers: it extracts the sorted unique intensities and their counts,
turns the counts into probabilities, and scans the candidate thresholds
(every unique intensity except the last) keeping running class-0
weight/mean, recording the inter-class variance of each split and the
first candidate attaining the running maximum.

The embedding below models images as lists of rows of natural numbers
(with an explicit column count, mirroring the numpy shape), and models
the floating-point arithmetic of the source by exact rational
arithmetic.  The numpy dtype check at the top of the function is
modelled by an explicit `DType` tag processed by `otsu_typed`.
-/

namespace ComputerVision

/-- A 2D image: rows of pixel intensities together with the declared
column count, mirroring the numpy shape `(N, M)` of `img_np`. -/
structure Image where
  data : List (List Nat)
  cols : Nat
deriving DecidableEq

/-- Number of rows, the `N` of `N, M = img_np.shape`. -/
def Image.rows (img : Image) : Nat := img.data.length

/-- The flattened pixel sequence of the image; numpy operations such as
`np.unique` flatten the 2D array before processing it. -/
def Image.pixels (img : Image) : List Nat := img.data.flatten

/-- Well-formedness of the 2D array: every row has exactly `cols` entries. -/
def Image.WF (img : Image) : Prop := ∀ r ∈ img.data, r.length = img.cols

instance (img : Image) : Decidable img.WF := List.decidableBAll _ _

/-- The sorted distinct intensity values of a pixel list, mirroring
`np.unique(img_np)` (line 42): every value present appears exactly once,
in ascending order. -/
def unique_intensivity (l : List Nat) : List Nat :=
  (List.range (l.foldr max 0 + 1)).filter (fun v => l.contains v)

/-- The occurrence counts aligned with `unique_intensivity`, mirroring the
`return_counts=True` output of `np.unique` (line 42). -/
def frequencies (l : List Nat) : List Nat :=
  (unique_intensivity l).map (fun v => l.count v)

/-- Line 50: `p = frequencies / (N*M)`, the per-unique-intensity
probabilities. -/
def pvals (img : Image) : List ℚ :=
  (frequencies img.pixels).map fun (c : Nat) => (c : ℚ) / ((img.rows * img.cols : Nat) : ℚ)

/-- Line 51: `mu_total = (unique_intensivity * p).sum()` (elementwise
product of the unique intensities with their probabilities). -/
def mu_total_of (img : Image) : ℚ :=
  (((unique_intensivity img.pixels).zip (pvals img)).map
    (fun vp => (vp.1 : ℚ) * vp.2)).sum

/-- The candidates scanned by the loop of line 62: it enumerates
`unique_intensivity[:-1]`, pairing candidate number `n` with `p[n]`. -/
def candsOf (img : Image) : List (Nat × ℚ) :=
  ((unique_intensivity img.pixels).zip (pvals img)).dropLast

/-- The mutable locals of the scan (lines 53–60). -/
structure OtsuState where
  w_0_t : ℚ
  mu_0_t : ℚ
  var_between_max : ℚ
  threshold_otsu : Nat
  var_between_list : List ℚ
deriving DecidableEq

/-- Initial values of the scan locals (lines 53–60). -/
def initState : OtsuState :=
  { w_0_t := 0, mu_0_t := 0, var_between_max := 0, threshold_otsu := 0,
    var_between_list := [] }

/-- The body of the `for` loop (lines 62–72): fold one candidate
`c = (threshold, p_0_t)` into the scan state. -/
def otsuStep (mu_total : ℚ) (s : OtsuState) (c : Nat × ℚ) : OtsuState :=
  let p_0_t := c.2
  let w_0_t_new := s.w_0_t + p_0_t
  let mu_0_t := (s.mu_0_t * s.w_0_t + (c.1 : ℚ) * p_0_t) / w_0_t_new
  let w_0_t := w_0_t_new
  let mu_1_t := (mu_total - w_0_t * mu_0_t) / (1 - w_0_t)
  let var_between := (w_0_t * (1 - w_0_t)) * (mu_0_t - mu_1_t) ^ 2
  { w_0_t := w_0_t
    mu_0_t := mu_0_t
    var_between_max := if s.var_between_max < var_between then var_between else s.var_between_max
    threshold_otsu := if s.var_between_max < var_between then c.1 else s.threshold_otsu
    var_between_list := s.var_between_list ++ [var_between] }

/-- Otsu's threshold, translated from `otsu` in `Computer_Vision.py`
(body after the dtype check, lines 42–75).  Returns the tuple
`(threshold_otsu, unique_intensivity, frequencies, var_between)`; in the
degenerate single-intensity branch the last three components are `None`
(line 46), otherwise the variance list gets a trailing `0` appended
(line 73). -/
def otsu (img : Image) :
    Nat × Option (List Nat) × Option (List Nat) × Option (List ℚ) :=
  let uniq := unique_intensivity img.pixels
  if uniq.length = 1 then
    (uniq.headD 0, none, none, none)
  else
    let final := (candsOf img).foldl (otsuStep (mu_total_of img)) initState
    (final.threshold_otsu, some uniq, some (frequencies img.pixels),
      some (final.var_between_list ++ [0]))

/-- Numpy element dtypes relevant to the check of line 39. -/
inductive DType
  | uint8 | uint16 | uint32 | uint64
  | int8 | int16 | int32 | int64
  | float32 | float64 | boolean
deriving DecidableEq

/-- Whether the dtype is an unsigned integer kind, mirroring
`np.issubdtype(img_np.dtype, np.unsignedinteger)` (line 39). -/
def DType.isUnsignedInteger : DType → Bool
  | .uint8 => true
  | .uint16 => true
  | .uint32 => true
  | .uint64 => true
  | _ => false

/-- The printed dtype name, as numpy formats it. -/
def DType.dname : DType → String
  | .uint8 => "uint8"
  | .uint16 => "uint16"
  | .uint32 => "uint32"
  | .uint64 => "uint64"
  | .int8 => "int8"
  | .int16 => "int16"
  | .int32 => "int32"
  | .int64 => "int64"
  | .float32 => "float32"
  | .float64 => "float64"
  | .boolean => "bool"

/-- Line 40: `'Image type = {...}. Convert the image in unsigned integer!'`
formatted with the offending dtype. -/
def errorMessage (d : DType) : String :=
  "Image type = " ++ d.dname ++ ". Convert the image in unsigned integer!"

/-- The full entry point including the dtype guard of lines 39–41: a
non-unsigned-integer dtype raises `TypeError` (modelled as `Except.error`)
before any computation on the pixel data. -/
def otsu_typed (d : DType) (img : Image) :
    Except String (Nat × Option (List Nat) × Option (List Nat) × Option (List ℚ)) :=
  if d.isUnsignedInteger = false then
    .error (errorMessage d)
  else
    .ok (otsu img)

/-- The probability assigned to intensity `v` by line 50: its count divided
by `N*M`. -/
def pixel_prob (img : Image) (v : Nat) : ℚ :=
  (img.pixels.count v : ℚ) / ((img.rows * img.cols : Nat) : ℚ)

/-- The per-candidate inter-class variances produced by the scan of lines
62–69, as a function of the global mean and the incoming `w_0_t`,
`mu_0_t` running values. -/
def var_between_seq (mu_total : ℚ) : ℚ → ℚ → List (Nat × ℚ) → List ℚ
  | _, _, [] => []
  | w_0_t, mu_0_t, c :: rest =>
    let w_0_t_new := w_0_t + c.2
    let mu_0_tn := (mu_0_t * w_0_t + (c.1 : ℚ) * c.2) / w_0_t_new
    let mu_1_t := (mu_total - w_0_t_new * mu_0_tn) / (1 - w_0_t_new)
    ((w_0_t_new * (1 - w_0_t_new)) * (mu_0_tn - mu_1_t) ^ 2)
      :: var_between_seq mu_total w_0_t_new mu_0_tn rest

/-- The running strict-improvement maximum of lines 70–72, over a list of
`(threshold, var_between)` pairs, starting from a given
`(var_between_max, threshold_otsu)`. -/
def runMax : ℚ × Nat → List (Nat × ℚ) → ℚ × Nat
  | s, [] => s
  | s, c :: rest => runMax (if s.1 < c.2 then (c.2, c.1) else s) rest

/-- The candidate thresholds scanned by the loop: `unique_intensivity[:-1]`. -/
def candidate_list (img : Image) : List Nat := (candsOf img).map Prod.fst

/-- The inter-class variance of each candidate threshold, index-aligned
with `candidate_list`. -/
def var_between_curve (img : Image) : List ℚ :=
  var_between_seq (mu_total_of img) 0 0 (candsOf img)

/-- Each candidate threshold paired with its inter-class variance. -/
def candidate_pairs (img : Image) : List (Nat × ℚ) :=
  (candidate_list img).zip (var_between_curve img)

/-- The scalar threshold component of the result. -/
def otsu_threshold (img : Image) : Nat := (otsu img).1

/-- The scan state after the first `n` candidates have been folded in. -/
def scan_state (img : Image) (n : Nat) : OtsuState :=
  ((candsOf img).take n).foldl (otsuStep (mu_total_of img)) initState

/-- Modelled from the spec: the loop body of the repository's second,
terse near-duplicate of `otsu` ("simple mode"), which is not under
`src/`.  Per spec §4.1 it maintains the running `w0`, `mu0`, derives
`mu1` and the inter-class variance, and tracks the maximum with strict
improvement; the state is `(w0, mu0, var_max, best_threshold)`. -/
def simpleStep (mu_total : ℚ) (s : ℚ × ℚ × ℚ × Nat) (c : Nat × ℚ) :
    ℚ × ℚ × ℚ × Nat :=
  let w0 := s.1 + c.2
  let mu0 := (s.2.1 * s.1 + (c.1 : ℚ) * c.2) / w0
  let mu1 := (mu_total - w0 * mu0) / (1 - w0)
  let vb := (w0 * (1 - w0)) * (mu0 - mu1) ^ 2
  (w0, mu0, if s.2.2.1 < vb then vb else s.2.2.1,
    if s.2.2.1 < vb then c.1 else s.2.2.2)

/-- Modelled from the spec: the repository's second entry point ("simple
mode", spec §2, §6), absent from `src/`.  Per spec §6 it returns only the
scalar threshold; per spec §4.1 it is computed by the same algorithm:
unique intensities and counts, probabilities over `rows × cols`, global
mean, and a scan of the candidates `I[0 .. k-2]` keeping the first
strict maximizer of the inter-class variance; per spec §4.1's degenerate
case a single-intensity image returns that intensity. -/
def otsu_simple (img : Image) : Nat :=
  let uniq := unique_intensivity img.pixels
  if uniq.length = 1 then uniq.headD 0
  else
    ((candsOf img).foldl (simpleStep (mu_total_of img)) (0, 0, 0, 0)).2.2.2

/-! ### Generic list lemmas -/

theorem sum_pos_of_forall_pos {xs : List ℚ} (h : ∀ q ∈ xs, 0 < q) (hne : xs ≠ []) :
    0 < xs.sum := by
  cases xs with
  | nil => exact absurd rfl hne
  | cons x xs =>
    have hx : 0 < x := h x (List.mem_cons_self x xs)
    have hxs : 0 ≤ xs.sum :=
      List.sum_nonneg fun q hq => le_of_lt (h q (List.mem_cons_of_mem _ hq))
    simpa [List.sum_cons] using add_pos_of_pos_of_nonneg hx hxs

theorem take_sum_le_sum {xs : List ℚ} (h : ∀ q ∈ xs, 0 ≤ q) (n : Nat) :
    (xs.take n).sum ≤ xs.sum := by
  conv_rhs => rw [← List.take_append_drop n xs]
  rw [List.sum_append]
  have hd : 0 ≤ (xs.drop n).sum :=
    List.sum_nonneg fun q hq => h q (List.drop_subset n xs hq)
  linarith

theorem take_sum_lt_sum {xs : List ℚ} (h : ∀ q ∈ xs, 0 < q) {n : Nat}
    (hn : n < xs.length) : (xs.take n).sum < xs.sum := by
  conv_rhs => rw [← List.take_append_drop n xs]
  rw [List.sum_append]
  have hne : xs.drop n ≠ [] := by
    intro hnil
    rw [List.drop_eq_nil_iff] at hnil
    omega
  have hd : 0 < (xs.drop n).sum :=
    sum_pos_of_forall_pos (fun q hq => h q (List.drop_subset n xs hq)) hne
  linarith

theorem take_sum_mono_succ {xs : List ℚ} (h : ∀ q ∈ xs, 0 ≤ q) (n : Nat) :
    (xs.take n).sum ≤ (xs.take (n + 1)).sum := by
  rw [List.take_succ, List.sum_append]
  have hd : 0 ≤ (xs[n]?.toList).sum := by
    cases hx : xs[n]? with
    | none => simp
    | some a => simpa using h a (List.getElem?_mem hx)
  linarith

theorem take_sum_pos {xs : List ℚ} (h : ∀ q ∈ xs, 0 < q) (hne : xs ≠ []) {n : Nat}
    (hn : 0 < n) : 0 < (xs.take n).sum := by
  apply sum_pos_of_forall_pos fun q hq => h q (List.take_subset n xs hq)
  intro hnil
  rcases List.take_eq_nil_iff.mp hnil with h1 | h1
  · omega
  · exact hne h1

/-! ### Facts about `unique_intensivity` and `frequencies` -/

theorem le_foldr_max {l : List Nat} {v : Nat} (hv : v ∈ l) : v ≤ l.foldr max 0 := by
  induction l with
  | nil => cases hv
  | cons x xs ih =>
    rcases List.mem_cons.mp hv with h | h
    · subst h
      exact le_max_left _ _
    · exact le_trans (ih h) (le_max_right _ _)

theorem mem_unique_intensivity {l : List Nat} {v : Nat} :
    v ∈ unique_intensivity l ↔ v ∈ l := by
  unfold unique_intensivity
  rw [List.mem_filter]
  constructor
  · intro h
    simpa [List.contains, List.elem_iff] using h.2
  · intro h
    refine ⟨?_, by simpa [List.contains, List.elem_iff] using h⟩
    rw [List.mem_range]
    exact Nat.lt_succ_of_le (le_foldr_max h)

theorem unique_intensivity_sorted (l : List Nat) :
    (unique_intensivity l).Pairwise (· < ·) :=
  (List.pairwise_lt_range _).filter _

theorem unique_intensivity_nodup (l : List Nat) : (unique_intensivity l).Nodup :=
  (unique_intensivity_sorted l).imp Nat.ne_of_lt

theorem unique_intensivity_toFinset (l : List Nat) :
    (unique_intensivity l).toFinset = l.toFinset := by
  ext v
  simp [List.mem_toFinset, mem_unique_intensivity]

theorem count_pos_of_mem_unique {l : List Nat} {v : Nat}
    (hv : v ∈ unique_intensivity l) : 0 < l.count v :=
  List.count_pos_iff.mpr (mem_unique_intensivity.mp hv)

theorem sum_map_unique (l : List Nat) (f : Nat → ℚ) :
    ((unique_intensivity l).map f).sum = ∑ v ∈ l.toFinset, f v := by
  rw [← List.sum_toFinset f (unique_intensivity_nodup l), unique_intensivity_toFinset]

theorem flatten_length_eq : ∀ (L : List (List Nat)) (m : Nat),
    (∀ r ∈ L, r.length = m) → L.flatten.length = L.length * m
  | [], _, _ => by simp
  | r :: L, m, h => by
    have hr : r.length = m := h r (List.mem_cons_self r L)
    have hL := flatten_length_eq L m fun s hs => h s (List.mem_cons_of_mem _ hs)
    simp only [List.flatten_cons, List.length_append, List.length_cons, hr, hL]
    ring

theorem length_pixels {img : Image} (hWF : img.WF) :
    img.pixels.length = img.rows * img.cols :=
  flatten_length_eq img.data img.cols hWF

/-! ### Rewriting the probability data -/

theorem zip_self_map {α β : Type} (l : List α) (g : α → β) :
    l.zip (l.map g) = l.map fun x => (x, g x) := by
  have h1 : l.zip (l.map g) = (l.map id).zip (l.map g) := by rw [List.map_id]
  rw [h1, List.zip_map']
  simp

theorem pvals_eq (img : Image) :
    pvals img = (unique_intensivity img.pixels).map (pixel_prob img) := by
  simp [pvals, frequencies, pixel_prob, List.map_map, Function.comp]

theorem cands_eq (img : Image) :
    candsOf img = ((unique_intensivity img.pixels).map
      fun v => (v, pixel_prob img v)).dropLast := by
  unfold candsOf
  rw [pvals_eq, zip_self_map]

theorem mu_total_eq (img : Image) :
    mu_total_of img = ∑ v ∈ img.pixels.toFinset, (v : ℚ) * pixel_prob img v := by
  unfold mu_total_of
  rw [pvals_eq, zip_self_map, List.map_map, ← sum_map_unique]
  rfl

/-! ### Analytic facts about the probabilities and the global mean -/

theorem T_eq {img : Image} (hWF : img.WF) :
    ((img.rows * img.cols : Nat) : ℚ) = (img.pixels.length : ℚ) := by
  rw [length_pixels hWF]

theorem T_pos {img : Image} (hWF : img.WF) (hne : img.pixels ≠ []) :
    0 < ((img.rows * img.cols : Nat) : ℚ) := by
  rw [T_eq hWF]
  have h : 0 < img.pixels.length := List.length_pos.mpr hne
  exact_mod_cast h

theorem pixel_prob_pos {img : Image} (hWF : img.WF) {v : Nat} (hv : v ∈ img.pixels) :
    0 < pixel_prob img v := by
  unfold pixel_prob
  apply div_pos
  · exact_mod_cast List.count_pos_iff.mpr hv
  · exact T_pos hWF (List.ne_nil_of_mem hv)

theorem pixel_prob_nonneg (img : Image) (v : Nat) : 0 ≤ pixel_prob img v := by
  unfold pixel_prob
  positivity

theorem sum_pixel_prob {img : Image} (hWF : img.WF) (hne : img.pixels ≠ []) :
    ∑ v ∈ img.pixels.toFinset, pixel_prob img v = 1 := by
  unfold pixel_prob
  rw [← Finset.sum_div, T_eq hWF]
  have hcast : ∑ v ∈ img.pixels.toFinset, (img.pixels.count v : ℚ)
      = ((∑ v ∈ img.pixels.toFinset, img.pixels.count v : Nat) : ℚ) := by
    push_cast
    rfl
  rw [hcast, List.sum_toFinset_count_eq_length]
  apply div_self
  have h : 0 < img.pixels.length := List.length_pos.mpr hne
  exact_mod_cast Nat.pos_iff_ne_zero.mp h

theorem pixel_prob_lt_one {img : Image} (hWF : img.WF) {v w : Nat}
    (hv : v ∈ img.pixels) (hw : w ∈ img.pixels) (hvw : v ≠ w) :
    pixel_prob img v < 1 := by
  have hne : img.pixels ≠ [] := List.ne_nil_of_mem hv
  have h1 : pixel_prob img v < ∑ u ∈ img.pixels.toFinset, pixel_prob img u := by
    apply Finset.single_lt_sum (Ne.symm hvw) (List.mem_toFinset.mpr hv)
      (List.mem_toFinset.mpr hw) (pixel_prob_pos hWF hw)
    intro k _ _
    exact pixel_prob_nonneg img k
  rwa [sum_pixel_prob hWF hne] at h1

theorem lt_mu_total {img : Image} (hWF : img.WF) {m : Nat} (hm : m ∈ img.pixels)
    (hmin : ∀ v ∈ img.pixels, m ≤ v) {w : Nat} (hw : w ∈ img.pixels) (hmw : m < w) :
    (m : ℚ) < mu_total_of img := by
  have hne : img.pixels ≠ [] := List.ne_nil_of_mem hm
  rw [mu_total_eq]
  have h0 : (m : ℚ) = ∑ v ∈ img.pixels.toFinset, (m : ℚ) * pixel_prob img v := by
    rw [← Finset.mul_sum, sum_pixel_prob hWF hne, mul_one]
  rw [h0]
  apply Finset.sum_lt_sum
  · intro v hv
    have hv2 : v ∈ img.pixels := List.mem_toFinset.mp hv
    have hle : (m : ℚ) ≤ (v : ℚ) := by exact_mod_cast hmin v hv2
    exact mul_le_mul_of_nonneg_right hle (pixel_prob_nonneg img v)
  · refine ⟨w, List.mem_toFinset.mpr hw, ?_⟩
    have hlt : (m : ℚ) < (w : ℚ) := by exact_mod_cast hmw
    exact mul_lt_mul_of_pos_right hlt (pixel_prob_pos hWF hw)

/-! ### Characterizing the scan fold -/

theorem pair_ite {P : Prop} [Decidable P] {a b : ℚ} {c d : Nat} :
    ((if P then a else b), (if P then c else d)) = if P then (a, c) else (b, d) := by
  split_ifs <;> rfl

theorem foldl_w0 (mu : ℚ) : ∀ (cs : List (Nat × ℚ)) (s : OtsuState),
    (cs.foldl (otsuStep mu) s).w_0_t = s.w_0_t + (cs.map Prod.snd).sum
  | [], s => by simp
  | c :: cs, s => by
    rw [List.foldl_cons, foldl_w0 mu cs]
    simp only [otsuStep, List.map_cons, List.sum_cons]
    ring

theorem foldl_varlist (mu : ℚ) : ∀ (cs : List (Nat × ℚ)) (s : OtsuState),
    (cs.foldl (otsuStep mu) s).var_between_list
      = s.var_between_list ++ var_between_seq mu s.w_0_t s.mu_0_t cs
  | [], s => by simp [var_between_seq]
  | c :: cs, s => by
    rw [List.foldl_cons, foldl_varlist mu cs]
    simp [otsuStep, var_between_seq]

theorem foldl_max (mu : ℚ) : ∀ (cs : List (Nat × ℚ)) (s : OtsuState),
    ((cs.foldl (otsuStep mu) s).var_between_max,
        (cs.foldl (otsuStep mu) s).threshold_otsu)
      = runMax (s.var_between_max, s.threshold_otsu)
          ((cs.map Prod.fst).zip (var_between_seq mu s.w_0_t s.mu_0_t cs))
  | [], s => by simp [var_between_seq, runMax]
  | c :: cs, s => by
    rw [List.foldl_cons, foldl_max mu cs]
    simp only [otsuStep, var_between_seq, List.map_cons, List.zip_cons_cons, runMax]
    rw [pair_ite]
    rfl

theorem var_between_seq_length (mu : ℚ) : ∀ (w0 mu0 : ℚ) (cs : List (Nat × ℚ)),
    (var_between_seq mu w0 mu0 cs).length = cs.length
  | _, _, [] => rfl
  | w0, mu0, c :: cs => by
    simp only [var_between_seq, List.length_cons]
    rw [var_between_seq_length mu _ _ cs]

/-- The running strict-improvement maximum either keeps its initial value
(when nothing beats it) or lands on the earliest entry attaining the
overall maximum. -/
theorem runMax_spec : ∀ (L : List (Nat × ℚ)) (vm : ℚ) (th : Nat),
    ((∀ q ∈ L, q.2 ≤ vm) ∧ runMax (vm, th) L = (vm, th)) ∨
    (∃ j : Nat, ∃ hj : j < L.length,
      runMax (vm, th) L = ((L.get ⟨j, hj⟩).2, (L.get ⟨j, hj⟩).1) ∧
      vm < (L.get ⟨j, hj⟩).2 ∧
      (∀ q ∈ L, q.2 ≤ (L.get ⟨j, hj⟩).2) ∧
      (∀ i : Nat, ∀ hi : i < L.length, i < j →
        (L.get ⟨i, hi⟩).2 < (L.get ⟨j, hj⟩).2))
  | [], vm, th => Or.inl ⟨by simp, rfl⟩
  | c :: L, vm, th => by
    by_cases hc : vm < c.2
    · have hrw : runMax (vm, th) (c :: L) = runMax (c.2, c.1) L := by
        simp [runMax, hc]
      rcases runMax_spec L c.2 c.1 with ⟨hall, heq⟩ | ⟨j, hj, heq, hlt, hall, hstrict⟩
      · refine Or.inr ⟨0, by simp, ?_, ?_, ?_, ?_⟩
        · rw [hrw, heq]
          rfl
        · simpa using hc
        · simp only [List.get_eq_getElem, List.getElem_cons_zero]
          intro q hq
          rcases List.mem_cons.mp hq with h | h
          · rw [h]
          · exact hall q h
        · intro i hi hij
          omega
      · refine Or.inr ⟨j + 1, by simpa using Nat.succ_lt_succ hj, ?_, ?_, ?_, ?_⟩
        · rw [hrw, heq]
          simp
        · simp only [List.get_eq_getElem, List.getElem_cons_succ]
          exact lt_trans hc hlt
        · simp only [List.get_eq_getElem, List.getElem_cons_succ]
          intro q hq
          rcases List.mem_cons.mp hq with h | h
          · rw [h]
            exact le_of_lt hlt
          · exact hall q h
        · simp only [List.get_eq_getElem, List.getElem_cons_succ]
          intro i hi hij
          cases i with
          | zero =>
            simpa using hlt
          | succ i =>
            have hi2 : i < L.length := by simpa using hi
            have hij2 : i < j := by omega
            simpa using hstrict i hi2 hij2
    · have hrw : runMax (vm, th) (c :: L) = runMax (vm, th) L := by
        simp [runMax, hc]
      have hcle : c.2 ≤ vm := not_lt.mp hc
      rcases runMax_spec L vm th with ⟨hall, heq⟩ | ⟨j, hj, heq, hlt, hall, hstrict⟩
      · refine Or.inl ⟨?_, by rw [hrw, heq]⟩
        intro q hq
        rcases List.mem_cons.mp hq with h | h
        · rw [h]
          exact hcle
        · exact hall q h
      · refine Or.inr ⟨j + 1, by simpa using Nat.succ_lt_succ hj, ?_, ?_, ?_, ?_⟩
        · rw [hrw, heq]
          simp
        · simp only [List.get_eq_getElem, List.getElem_cons_succ]
          simpa using hlt
        · simp only [List.get_eq_getElem, List.getElem_cons_succ]
          intro q hq
          rcases List.mem_cons.mp hq with h | h
          · rw [h]
            exact le_of_lt (lt_of_le_of_lt hcle hlt)
          · exact hall q h
        · simp only [List.get_eq_getElem, List.getElem_cons_succ]
          intro i hi hij
          cases i with
          | zero =>
            simpa using lt_of_le_of_lt hcle hlt
          | succ i =>
            have hi2 : i < L.length := by simpa using hi
            have hij2 : i < j := by omega
            simpa using hstrict i hi2 hij2

/-! ### Shape of the candidate data -/

theorem pvals_length (img : Image) :
    (pvals img).length = (unique_intensivity img.pixels).length := by
  simp [pvals, frequencies]

theorem candidate_list_eq (img : Image) :
    candidate_list img = (unique_intensivity img.pixels).dropLast := by
  unfold candidate_list candsOf
  rw [List.map_dropLast, List.map_fst_zip]
  rw [pvals_length]

theorem cands_length (img : Image) :
    (candsOf img).length = (unique_intensivity img.pixels).length - 1 := by
  unfold candsOf
  rw [List.length_dropLast, List.length_zip, pvals_length, Nat.min_self]

theorem uniq_two_le_shape {l : List Nat} (hk : 2 ≤ (unique_intensivity l).length) :
    ∃ i0 i1 tl, unique_intensivity l = i0 :: i1 :: tl := by
  cases h : unique_intensivity l with
  | nil =>
    rw [h] at hk
    simp at hk
  | cons a t =>
    cases t with
    | nil =>
      rw [h] at hk
      simp at hk
    | cons b t2 => exact ⟨a, b, t2, rfl⟩

theorem head_min {l : List Nat} {i0 : Nat} {rest : List Nat}
    (h : unique_intensivity l = i0 :: rest) : ∀ v ∈ l, i0 ≤ v := by
  intro v hv
  have hvu : v ∈ i0 :: rest := h ▸ mem_unique_intensivity.mpr hv
  have hp := unique_intensivity_sorted l
  rw [h] at hp
  rcases List.mem_cons.mp hvu with h1 | h1
  · omega
  · have hlt := (List.pairwise_cons.mp hp).1 v h1
    omega

theorem otsu_of_two_le {img : Image}
    (hk : 2 ≤ (unique_intensivity img.pixels).length) :
    otsu img = (((candsOf img).foldl (otsuStep (mu_total_of img)) initState).threshold_otsu,
      some (unique_intensivity img.pixels), some (frequencies img.pixels),
      some (((candsOf img).foldl (otsuStep (mu_total_of img)) initState).var_between_list
        ++ [0])) := by
  simp only [otsu]
  rw [if_neg (by omega : ¬ (unique_intensivity img.pixels).length = 1)]

/-! ### The first candidate's inter-class variance is strictly positive -/

theorem first_var_pos {img : Image} (hWF : img.WF)
    (hk : 2 ≤ (unique_intensivity img.pixels).length) :
    ∃ q ∈ candidate_pairs img, 0 < q.2 := by
  obtain ⟨i0, i1, tl, huniq⟩ := uniq_two_le_shape hk
  have hi0u : i0 ∈ unique_intensivity img.pixels := by
    rw [huniq]
    exact List.mem_cons_self _ _
  have hi1u : i1 ∈ unique_intensivity img.pixels := by
    rw [huniq]
    exact List.mem_cons_of_mem _ (List.mem_cons_self _ _)
  have hi0l : i0 ∈ img.pixels := mem_unique_intensivity.mp hi0u
  have hi1l : i1 ∈ img.pixels := mem_unique_intensivity.mp hi1u
  have hi01 : i0 < i1 := by
    have hp := unique_intensivity_sorted img.pixels
    rw [huniq] at hp
    exact (List.pairwise_cons.mp hp).1 i1 (List.mem_cons_self _ _)
  have hp0 : 0 < pixel_prob img i0 := pixel_prob_pos hWF hi0l
  have hp0ne : pixel_prob img i0 ≠ 0 := ne_of_gt hp0
  have hp0lt1 : pixel_prob img i0 < 1 :=
    pixel_prob_lt_one hWF hi0l hi1l (Nat.ne_of_lt hi01)
  have hmu : (i0 : ℚ) < mu_total_of img :=
    lt_mu_total hWF hi0l (head_min huniq) hi1l hi01
  have hcands : candsOf img = (i0, pixel_prob img i0)
      :: ((i1 :: tl).map fun v => (v, pixel_prob img v)).dropLast := by
    rw [cands_eq, huniq]
    simp
  rw [candidate_pairs, candidate_list, var_between_curve, hcands]
  simp only [var_between_seq, List.map_cons, List.zip_cons_cons]
  refine ⟨_, List.mem_cons_self _ _, ?_⟩
  · set p0 := pixel_prob img i0 with hp0def
    set mu := mu_total_of img with hmudef
    have hw : (0 : ℚ) + p0 = p0 := zero_add p0
    have hmu0 : ((0 : ℚ) * 0 + (i0 : ℚ) * p0) / p0 = (i0 : ℚ) := by
      rw [zero_mul, zero_add, mul_div_assoc, div_self hp0ne, mul_one]
    simp only [var_between_seq, hw, hmu0]
    have h1p0 : 0 < 1 - p0 := by linarith
    have hsub : (i0 : ℚ) - (mu - p0 * (i0 : ℚ)) / (1 - p0)
        = ((i0 : ℚ) - mu) / (1 - p0) := by
      field_simp
      ring
    have hneg : ((i0 : ℚ) - mu) / (1 - p0) < 0 :=
      div_neg_of_neg_of_pos (by linarith) h1p0
    have hsq : 0 < ((i0 : ℚ) - (mu - p0 * (i0 : ℚ)) / (1 - p0)) ^ 2 := by
      rw [hsub]
      exact lt_of_le_of_ne (sq_nonneg _) (Ne.symm (pow_ne_zero 2 (ne_of_lt hneg)))
    exact mul_pos (mul_pos hp0 h1p0) hsq

/-! ### The threshold is the earliest maximizer of the variance curve -/

theorem otsu_threshold_spec {img : Image} (hWF : img.WF)
    (hk : 2 ≤ (unique_intensivity img.pixels).length) :
    ∃ j : Nat, ∃ hj : j < (candidate_pairs img).length,
      otsu_threshold img = ((candidate_pairs img).get ⟨j, hj⟩).1 ∧
      (∀ q ∈ candidate_pairs img, q.2 ≤ ((candidate_pairs img).get ⟨j, hj⟩).2) ∧
      (∀ i : Nat, ∀ hi : i < (candidate_pairs img).length, i < j →
        ((candidate_pairs img).get ⟨i, hi⟩).2 < ((candidate_pairs img).get ⟨j, hj⟩).2) := by
  have hmax2 : (((candsOf img).foldl (otsuStep (mu_total_of img)) initState).var_between_max,
      ((candsOf img).foldl (otsuStep (mu_total_of img)) initState).threshold_otsu)
      = runMax (0, 0) (candidate_pairs img) :=
    foldl_max (mu_total_of img) (candsOf img) initState
  rcases runMax_spec (candidate_pairs img) 0 0 with ⟨hall, _⟩ | ⟨j, hj, heq, _, hall, hstrict⟩
  · obtain ⟨q, hq, hqpos⟩ := first_var_pos hWF hk
    have hle := hall q hq
    linarith
  · refine ⟨j, hj, ?_, hall, hstrict⟩
    have hthr : otsu_threshold img
        = ((candsOf img).foldl (otsuStep (mu_total_of img)) initState).threshold_otsu := by
      unfold otsu_threshold
      rw [otsu_of_two_le hk]
    rw [hthr]
    exact congrArg Prod.snd (hmax2.trans heq)

theorem otsu_threshold_mem_candidates {img : Image} (hWF : img.WF)
    (hk : 2 ≤ (unique_intensivity img.pixels).length) :
    otsu_threshold img ∈ candidate_list img := by
  obtain ⟨j, hj, hthr, _, _⟩ := otsu_threshold_spec hWF hk
  have hmem : (candidate_pairs img).get ⟨j, hj⟩ ∈ candidate_pairs img :=
    List.get_mem _ _ _
  have hq2 : (((candidate_pairs img).get ⟨j, hj⟩).1,
      ((candidate_pairs img).get ⟨j, hj⟩).2)
      ∈ (candidate_list img).zip (var_between_curve img) := by
    rw [Prod.mk.eta]
    exact hmem
  rw [hthr]
  exact (List.of_mem_zip hq2).1

theorem otsu_threshold_mem_dropLast {img : Image} (hWF : img.WF)
    (hk : 2 ≤ (unique_intensivity img.pixels).length) :
    otsu_threshold img ∈ (unique_intensivity img.pixels).dropLast := by
  have h1 := otsu_threshold_mem_candidates hWF hk
  rwa [candidate_list_eq] at h1

theorem otsu_threshold_mem {img : Image} (hWF : img.WF)
    (hk : 2 ≤ (unique_intensivity img.pixels).length) :
    otsu_threshold img ∈ unique_intensivity img.pixels :=
  List.dropLast_subset _ (otsu_threshold_mem_dropLast hWF hk)

/-- A small concrete image used by the witnesses: one row `[0, 1]`. -/
def testImg : Image := { data := [[0, 1]], cols := 2 }

/-- A concrete constant image used by the degenerate-case witness. -/
def testImgConst : Image := { data := [[5, 5], [5, 5]], cols := 2 }

/-- C1: on every well-formed 2D image with at least two distinct
intensities, the returned threshold is one of the observed unique
intensities; the candidates are exactly the unique intensities excluding
the last; the threshold is a candidate whose inter-class variance is
maximal among all candidates; and every earlier (lower-intensity)
candidate has strictly smaller variance, so the earliest maximizer wins
ties (the running maximum is updated only on strict improvement). -/
theorem claim_C1 (img : Image) (hWF : img.WF)
    (hk : 2 ≤ (unique_intensivity img.pixels).length) :
    otsu_threshold img ∈ unique_intensivity img.pixels ∧
    candidate_list img = (unique_intensivity img.pixels).dropLast ∧
    ∃ j : Nat, ∃ hj : j < (candidate_pairs img).length,
      otsu_threshold img = ((candidate_pairs img).get ⟨j, hj⟩).1 ∧
      (∀ q ∈ candidate_pairs img, q.2 ≤ ((candidate_pairs img).get ⟨j, hj⟩).2) ∧
      (∀ i : Nat, ∀ hi : i < (candidate_pairs img).length, i < j →
        ((candidate_pairs img).get ⟨i, hi⟩).2 < ((candidate_pairs img).get ⟨j, hj⟩).2) :=
  ⟨otsu_threshold_mem hWF hk, candidate_list_eq img, otsu_threshold_spec hWF hk⟩

/-- Witness for C1 at the concrete image `[[0, 1]]`. -/
theorem claim_C1_witness :
    Image.WF testImg ∧ 2 ≤ (unique_intensivity testImg.pixels).length ∧
    (otsu_threshold testImg ∈ unique_intensivity testImg.pixels ∧
    candidate_list testImg = (unique_intensivity testImg.pixels).dropLast ∧
    ∃ j : Nat, ∃ hj : j < (candidate_pairs testImg).length,
      otsu_threshold testImg = ((candidate_pairs testImg).get ⟨j, hj⟩).1 ∧
      (∀ q ∈ candidate_pairs testImg, q.2 ≤ ((candidate_pairs testImg).get ⟨j, hj⟩).2) ∧
      (∀ i : Nat, ∀ hi : i < (candidate_pairs testImg).length, i < j →
        ((candidate_pairs testImg).get ⟨i, hi⟩).2
          < ((candidate_pairs testImg).get ⟨j, hj⟩).2)) :=
  ⟨by decide, by decide, claim_C1 testImg (by decide) (by decide)⟩

/-- C3: an image with exactly one unique intensity `v` returns `v` as the
threshold immediately, with the unique-intensity, frequency and
variance-curve outputs reported as `None` rather than populated; no
variance computation occurs. -/
theorem claim_C3 (img : Image) (v : Nat)
    (hu : unique_intensivity img.pixels = [v]) :
    otsu img = (v, none, none, none) := by
  simp [otsu, hu]

/-- Witness for C3 at the constant image `[[5, 5], [5, 5]]`. -/
theorem claim_C3_witness :
    unique_intensivity testImgConst.pixels = [5] ∧
    otsu testImgConst = (5, none, none, none) :=
  ⟨by decide, claim_C3 testImgConst 5 (by decide)⟩

/-- C4: on every well-formed image with exactly two distinct intensities
`a < b` (in any proportion of pixel counts), the returned threshold is
`a`. -/
theorem claim_C4 (img : Image) (a b : Nat) (hWF : img.WF) (hab : a < b)
    (hu : unique_intensivity img.pixels = [a, b]) :
    otsu_threshold img = a := by
  have hk : 2 ≤ (unique_intensivity img.pixels).length := by
    rw [hu]
    simp
  have h1 := otsu_threshold_mem_candidates hWF hk
  rw [candidate_list_eq, hu] at h1
  simpa using h1

/-- Witness for C4 at the concrete image `[[0, 1]]`. -/
theorem claim_C4_witness :
    Image.WF testImg ∧ 0 < 1 ∧ unique_intensivity testImg.pixels = [0, 1] ∧
    otsu_threshold testImg = 0 :=
  ⟨by decide, by decide, by decide,
    claim_C4 testImg 0 1 (by decide) (by decide) (by decide)⟩

/-- C10: on every well-formed image with at least two distinct
intensities, the returned threshold is strictly below the maximum
observed intensity (the last unique intensity is never returned), and
the initial default threshold `0` is also strictly below that maximum. -/
theorem claim_C10 (img : Image) (hWF : img.WF)
    (hk : 2 ≤ (unique_intensivity img.pixels).length) :
    otsu_threshold img < img.pixels.foldr max 0 ∧
    0 < img.pixels.foldr max 0 := by
  have h1 := otsu_threshold_mem_dropLast hWF hk
  have hne : unique_intensivity img.pixels ≠ [] := by
    intro h
    rw [h] at hk
    simp at hk
  have hsort := unique_intensivity_sorted img.pixels
  have hsplit := List.dropLast_append_getLast hne
  rw [← hsplit] at hsort
  have hpa := (List.pairwise_append.mp hsort).2.2
  have hthr_lt : otsu_threshold img < (unique_intensivity img.pixels).getLast hne :=
    hpa _ h1 _ (List.mem_singleton.mpr rfl)
  have hgl_pix : (unique_intensivity img.pixels).getLast hne ∈ img.pixels :=
    mem_unique_intensivity.mp (List.getLast_mem hne)
  have hgl_le : (unique_intensivity img.pixels).getLast hne ≤ img.pixels.foldr max 0 :=
    le_foldr_max hgl_pix
  omega

/-- Witness for C10 at the concrete image `[[0, 1]]`. -/
theorem claim_C10_witness :
    Image.WF testImg ∧ 2 ≤ (unique_intensivity testImg.pixels).length ∧
    (otsu_threshold testImg < testImg.pixels.foldr max 0 ∧
    0 < testImg.pixels.foldr max 0) :=
  ⟨by decide, by decide, claim_C10 testImg (by decide) (by decide)⟩

/-! ### The verbose variance curve and the scan state -/

theorem otsu_varlist_eq (img : Image) :
    ((candsOf img).foldl (otsuStep (mu_total_of img)) initState).var_between_list
      = var_between_curve img := by
  rw [foldl_varlist]
  simp [initState, var_between_curve]

theorem scan_state_w0 (img : Image) (n : Nat) :
    (scan_state img n).w_0_t = (((candsOf img).take n).map Prod.snd).sum := by
  unfold scan_state
  rw [foldl_w0]
  simp [initState]

theorem cands_map_snd (img : Image) :
    (candsOf img).map Prod.snd
      = ((unique_intensivity img.pixels).map (pixel_prob img)).dropLast := by
  unfold candsOf
  rw [List.map_dropLast, List.map_snd_zip _ _ (pvals_length img).le, pvals_eq]

theorem probs_pos {img : Image} (hWF : img.WF) :
    ∀ q ∈ (unique_intensivity img.pixels).map (pixel_prob img), 0 < q := by
  intro q hq
  obtain ⟨v, hv, rfl⟩ := List.mem_map.mp hq
  exact pixel_prob_pos hWF (mem_unique_intensivity.mp hv)

theorem probs_sum {img : Image} (hWF : img.WF) (hne : img.pixels ≠ []) :
    ((unique_intensivity img.pixels).map (pixel_prob img)).sum = 1 := by
  rw [sum_map_unique]
  exact sum_pixel_prob hWF hne

theorem pixels_ne_nil_of_two_le {img : Image}
    (hk : 2 ≤ (unique_intensivity img.pixels).length) : img.pixels ≠ [] := by
  obtain ⟨i0, i1, tl, huniq⟩ := uniq_two_le_shape hk
  have h : i0 ∈ img.pixels := mem_unique_intensivity.mp
    (by rw [huniq]; exact List.mem_cons_self _ _)
  exact List.ne_nil_of_mem h

/-- C7: on every image with at least two distinct intensities, the
verbose outputs hold the unique intensities, their frequencies, and an
inter-class-variance sequence that is the per-candidate variance curve
with one trailing zero appended; the padded curve has exactly the length
of the unique-intensity sequence (one entry per candidate plus the zero
for the excluded last unique intensity), aligning index-for-index. -/
theorem claim_C7 (img : Image)
    (hk : 2 ≤ (unique_intensivity img.pixels).length) :
    (otsu img).2.1 = some (unique_intensivity img.pixels) ∧
    (otsu img).2.2.1 = some (frequencies img.pixels) ∧
    (otsu img).2.2.2 = some (var_between_curve img ++ [0]) ∧
    (var_between_curve img ++ [0]).length = (unique_intensivity img.pixels).length ∧
    (var_between_curve img).length = (candidate_list img).length ∧
    candidate_list img = (unique_intensivity img.pixels).dropLast := by
  have hcurve : (var_between_curve img).length = (candsOf img).length :=
    var_between_seq_length _ _ _ _
  have hck := cands_length img
  refine ⟨?_, ?_, ?_, ?_, ?_, candidate_list_eq img⟩
  · rw [otsu_of_two_le hk]
  · rw [otsu_of_two_le hk]
  · rw [otsu_of_two_le hk, otsu_varlist_eq]
  · rw [List.length_append, hcurve, hck]
    simp
    omega
  · rw [hcurve, candidate_list, List.length_map]

/-- Witness for C7 at the concrete image `[[0, 1]]`. -/
theorem claim_C7_witness :
    2 ≤ (unique_intensivity testImg.pixels).length ∧
    ((otsu testImg).2.1 = some (unique_intensivity testImg.pixels) ∧
    (otsu testImg).2.2.1 = some (frequencies testImg.pixels) ∧
    (otsu testImg).2.2.2 = some (var_between_curve testImg ++ [0]) ∧
    (var_between_curve testImg ++ [0]).length
      = (unique_intensivity testImg.pixels).length ∧
    (var_between_curve testImg).length = (candidate_list testImg).length ∧
    candidate_list testImg = (unique_intensivity testImg.pixels).dropLast) :=
  ⟨by decide, claim_C7 testImg (by decide)⟩

/-- C5: on every well-formed image with at least two distinct
intensities, at every processed candidate the division is safe: the
updated class-0 weight `w_0_t_new` (the divisor of the class-0 mean
update) is strictly positive, and `1 - w_0_t` (the divisor of the
class-1 mean) is strictly positive as well, for every candidate index. -/
theorem claim_C5 (img : Image) (hWF : img.WF)
    (hk : 2 ≤ (unique_intensivity img.pixels).length) :
    ∀ n, n < (candsOf img).length →
      0 < (scan_state img (n + 1)).w_0_t ∧
      0 < 1 - (scan_state img (n + 1)).w_0_t := by
  intro n hn
  have hne : img.pixels ≠ [] := pixels_ne_nil_of_two_le hk
  have hpos := probs_pos hWF
  have hsum := probs_sum hWF hne
  have hplen : ((unique_intensivity img.pixels).map (pixel_prob img)).length
      = (unique_intensivity img.pixels).length := List.length_map _ _
  have hck := cands_length img
  have hw : (scan_state img (n + 1)).w_0_t
      = (((unique_intensivity img.pixels).map (pixel_prob img)).take (n + 1)).sum := by
    rw [scan_state_w0, List.map_take, cands_map_snd, List.dropLast_eq_take,
      List.take_take]
    congr 1
    rw [min_eq_left]
    omega
  have hpne : (unique_intensivity img.pixels).map (pixel_prob img) ≠ [] := by
    rw [← List.length_pos]
    omega
  constructor
  · rw [hw]
    exact take_sum_pos hpos hpne (by omega)
  · rw [hw]
    have hlt := take_sum_lt_sum hpos
      (show n + 1 < ((unique_intensivity img.pixels).map (pixel_prob img)).length by omega)
    rw [hsum] at hlt
    linarith

/-- Witness for C5 at the concrete image `[[0, 1]]`. -/
theorem claim_C5_witness :
    Image.WF testImg ∧ 2 ≤ (unique_intensivity testImg.pixels).length ∧
    (∀ n, n < (candsOf testImg).length →
      0 < (scan_state testImg (n + 1)).w_0_t ∧
      0 < 1 - (scan_state testImg (n + 1)).w_0_t) :=
  ⟨by decide, by decide, claim_C5 testImg (by decide) (by decide)⟩

/-- C6: on every well-formed image with at least two distinct
intensities, the class-0 weight `w_0_t` is non-decreasing from each
candidate to the next, and after the last evaluated candidate it is
still strictly less than 1 (mass always remains for class 1). -/
theorem claim_C6 (img : Image) (hWF : img.WF)
    (hk : 2 ≤ (unique_intensivity img.pixels).length) :
    (∀ n, (scan_state img n).w_0_t ≤ (scan_state img (n + 1)).w_0_t) ∧
    (scan_state img ((candsOf img).length)).w_0_t < 1 := by
  have hne : img.pixels ≠ [] := pixels_ne_nil_of_two_le hk
  have hpos := probs_pos hWF
  have hsum := probs_sum hWF hne
  have hplen : ((unique_intensivity img.pixels).map (pixel_prob img)).length
      = (unique_intensivity img.pixels).length := List.length_map _ _
  have hck := cands_length img
  constructor
  · intro n
    rw [scan_state_w0, scan_state_w0, List.map_take, List.map_take]
    apply take_sum_mono_succ
    intro q hq
    rw [cands_map_snd] at hq
    exact le_of_lt (hpos q (List.dropLast_subset _ hq))
  · rw [scan_state_w0, List.take_length, cands_map_snd, List.dropLast_eq_take]
    have hlt := take_sum_lt_sum hpos
      (show ((unique_intensivity img.pixels).map (pixel_prob img)).length - 1
          < ((unique_intensivity img.pixels).map (pixel_prob img)).length by omega)
    rw [hsum] at hlt
    exact hlt

/-- Witness for C6 at the concrete image `[[0, 1]]`. -/
theorem claim_C6_witness :
    Image.WF testImg ∧ 2 ≤ (unique_intensivity testImg.pixels).length ∧
    ((∀ n, (scan_state testImg n).w_0_t ≤ (scan_state testImg (n + 1)).w_0_t) ∧
    (scan_state testImg ((candsOf testImg).length)).w_0_t < 1) :=
  ⟨by decide, by decide, claim_C6 testImg (by decide) (by decide)⟩

/-- C2: for every array dtype that is not an unsigned integer kind, the
entry point raises the `TypeError` (modelled as `Except.error`) whose
message names the offending dtype and instructs conversion to unsigned
integers; the error is raised before any computation (it does not depend
on the pixel data), and no other input validation exists: every
unsigned-integer dtype succeeds on every image, well-formed or not. -/
theorem claim_C2 (d : DType) (img : Image) (h : d.isUnsignedInteger = false) :
    otsu_typed d img = Except.error (errorMessage d) ∧
    errorMessage d
      = "Image type = " ++ d.dname ++ ". Convert the image in unsigned integer!" ∧
    (∀ img2 : Image, otsu_typed d img2 = otsu_typed d img) ∧
    (∀ d2 : DType, ∀ img2 : Image, d2.isUnsignedInteger = true →
      otsu_typed d2 img2 = Except.ok (otsu img2)) := by
  refine ⟨?_, rfl, ?_, ?_⟩
  · simp [otsu_typed, h]
  · intro img2
    simp [otsu_typed, h]
  · intro d2 img2 h2
    simp [otsu_typed, h2]

/-- Witness for C2 at dtype `float64` and the concrete image `[[0, 1]]`. -/
theorem claim_C2_witness :
    DType.isUnsignedInteger DType.float64 = false ∧
    (otsu_typed DType.float64 testImg = Except.error (errorMessage DType.float64) ∧
    errorMessage DType.float64
      = "Image type = " ++ DType.dname DType.float64
        ++ ". Convert the image in unsigned integer!" ∧
    (∀ img2 : Image, otsu_typed DType.float64 img2 = otsu_typed DType.float64 testImg) ∧
    (∀ d2 : DType, ∀ img2 : Image, d2.isUnsignedInteger = true →
      otsu_typed d2 img2 = Except.ok (otsu img2))) :=
  ⟨by decide, claim_C2 DType.float64 testImg (by decide)⟩

/-- C8: `otsu` is modelled as a pure function (no state, no effects), so
repeated calls on bit-identical input images return the identical result:
the same threshold and the same verbose outputs. -/
theorem claim_C8 (img1 img2 : Image) (h : img1 = img2) :
    otsu img1 = otsu img2 ∧ otsu_threshold img1 = otsu_threshold img2 := by
  rw [h]
  exact ⟨rfl, rfl⟩

/-- Witness for C8 applying the theorem at the concrete image `[[0, 1]]`. -/
theorem claim_C8_witness :
    testImg = testImg ∧
    (otsu testImg = otsu testImg ∧ otsu_threshold testImg = otsu_threshold testImg) :=
  ⟨rfl, claim_C8 testImg testImg rfl⟩

/-! ### Simple mode refines verbose mode -/

theorem foldl_simple (mu : ℚ) : ∀ (cs : List (Nat × ℚ)) (s : OtsuState),
    cs.foldl (simpleStep mu) (s.w_0_t, s.mu_0_t, s.var_between_max, s.threshold_otsu)
      = ((cs.foldl (otsuStep mu) s).w_0_t, (cs.foldl (otsuStep mu) s).mu_0_t,
         (cs.foldl (otsuStep mu) s).var_between_max,
         (cs.foldl (otsuStep mu) s).threshold_otsu)
  | [], _ => rfl
  | c :: cs, s => by
    rw [List.foldl_cons, List.foldl_cons]
    have hstep : simpleStep mu (s.w_0_t, s.mu_0_t, s.var_between_max, s.threshold_otsu) c
        = ((otsuStep mu s c).w_0_t, (otsuStep mu s c).mu_0_t,
           (otsuStep mu s c).var_between_max, (otsuStep mu s c).threshold_otsu) := rfl
    rw [hstep]
    exact foldl_simple mu cs (otsuStep mu s c)

/-- C9: the component offers the two entry-point modes — `otsu_simple`
returning only the scalar threshold and `otsu` returning the verbose
tuple — and for every input image the value of simple mode equals the
first element of the verbose-mode tuple. -/
theorem claim_C9 (img : Image) : otsu_simple img = (otsu img).1 := by
  simp only [otsu_simple, otsu]
  split_ifs with h
  · rfl
  · have hf : (candsOf img).foldl (simpleStep (mu_total_of img)) (0, 0, 0, 0)
        = (((candsOf img).foldl (otsuStep (mu_total_of img)) initState).w_0_t,
           ((candsOf img).foldl (otsuStep (mu_total_of img)) initState).mu_0_t,
           ((candsOf img).foldl (otsuStep (mu_total_of img)) initState).var_between_max,
           ((candsOf img).foldl (otsuStep (mu_total_of img)) initState).threshold_otsu) :=
      foldl_simple (mu_total_of img) (candsOf img) initState
    rw [hf]

end ComputerVision
